import Mathlib

/-!
Verification of the session-rag ingestion and retrieval core.

Shallow embedding of the TypeScript sources:
  - src/parser.ts      : message classification, file-path extraction, session parsing
  - src/embedder.ts    : batched embedding calls
  - src/db/index.ts    : session/chunk upserts and the two search queries
  - src/cli.ts         : the per-file ingest pipeline

Strings are modelled as lists of characters; JavaScript string
operations (trim, slice, length, template literals) are translated
directly.  External collaborators (the JSON parser, the Postgres
operators `<=>`, `to_tsvector`/`plainto_tsquery`/`ts_rank`, and the
embedding service) enter as explicit function parameters; everything
else is translated from the source.
-/

abbrev Str := List Char

/-- Whitespace as used by JavaScript `trim` and the `\s` character
class, restricted to the ASCII range (the transcripts are ASCII). -/
def isWs (c : Char) : Bool :=
  c = ' ' || c = '\t' || c = '\n' || c = '\r' || c = Char.ofNat 11 || c = Char.ofNat 12

/-- JavaScript `\w`: ASCII letters, digits and underscore. -/
def isWordChar (c : Char) : Bool :=
  c.isAlpha || c.isDigit || c = '_'

def trimLeft (s : Str) : Str := s.dropWhile isWs

def trimRight (s : Str) : Str := (s.reverse.dropWhile isWs).reverse

/-- JavaScript `String.prototype.trim`. -/
def trimStr (s : Str) : Str := trimRight (trimLeft s)

/-- Roles assigned by the classifier (`extractContent`). -/
inductive Role where
  | user
  | assistant
  | tool
  | system
deriving DecidableEq, Repr

/-- One parsed JSONL record (`ClaudeMessage` in src/parser.ts).  The
`other` constructor stands for any record whose `type` tag is none of
the four known ones; `timestamp` is the raw string field (absent or
empty strings are falsy in the source). -/
inductive ClaudeMessage where
  | user (timestamp : Option Str) (content : Str)
  | assistant (timestamp : Option Str) (content : Str)
  | toolUse (timestamp : Option Str) (toolName : Str)
      (inputDescription : Option Str) (inputCommand : Option Str)
  | toolResult (timestamp : Option Str) (toolName : Str)
      (output : Option Str) (preview : Option Str)
  | other (timestamp : Option Str)
deriving DecidableEq, Repr

def ClaudeMessage.timestamp : ClaudeMessage → Option Str
  | .user ts _ => ts
  | .assistant ts _ => ts
  | .toolUse ts _ _ _ => ts
  | .toolResult ts _ _ _ => ts
  | .other ts => ts

def ClaudeMessage.isToolUse : ClaudeMessage → Bool
  | .toolUse _ _ _ _ => true
  | _ => false

/-- JavaScript `a || b` on possibly-absent strings: an absent or empty
left operand falls through to the right. -/
def truthyOrElse (a : Option Str) (b : Str) : Str :=
  match a with
  | some s => if s = [] then b else s
  | none => b

/-- The string `"[Tool Result: " ++ name ++ "]"`. -/
def toolResultHeader (name : Str) : Str :=
  "[Tool Result: ".data ++ name ++ "]".data

structure Extracted where
  text : Str
  tools : List Str
  role : Role
deriving DecidableEq, Repr

/-- `extractContent` from src/parser.ts. -/
def extractContent : ClaudeMessage → Extracted
  | .user _ c => ⟨c, [], .user⟩
  | .assistant _ c => ⟨c, [], .assistant⟩
  | .toolUse _ name desc cmd =>
    let inputDesc := truthyOrElse desc (truthyOrElse cmd [])
    ⟨trimStr ("[Tool: ".data ++ name ++ "] ".data ++ inputDesc), [name], .tool⟩
  | .toolResult _ name out prev =>
    let output := truthyOrElse out (truthyOrElse prev [])
    let truncatedOutput :=
      if output.length > 1000 then output.take 1000 ++ "...".data else output
    ⟨trimStr (toolResultHeader name ++ '\n' :: truncatedOutput), [name], .tool⟩
  | .other _ => ⟨[], [], .system⟩

/-! ### File-path extraction (`extractFilePaths`)

Each of the five regular expressions of the source is translated to a
matcher that, at a given position of the input, either fails or
returns the text of capture group 1 together with the suffix following
the whole match.  The driver `scanAll` replays `String.matchAll`:
leftmost matches, resuming after each match. -/

def backtickChar : Char := Char.ofNat 96

/-- Character class `[\w\-./]` of the path patterns. -/
def isPathChar (c : Char) : Bool :=
  isWordChar c || c = '-' || c = '.' || c = '/'

/-- All splits of `s` into a nonempty prefix of `cls`-characters and
the rest, longest prefix first — the order in which a backtracking
greedy `+` tries them. -/
def greedySplits (cls : Char → Bool) (s : Str) : List (Str × Str) :=
  let n := (s.takeWhile cls).length
  (List.range n).reverse.map (fun j => (s.take (j + 1), s.drop (j + 1)))

/-- A matcher: given whether the position is the start of the string
and the suffix at the position, return capture group 1 and the suffix
after the whole match. -/
abbrev PatMatcher := Bool → Str → Option (Str × Str)

/-- Body of `\/[\w\-.\/]+\.\w+` (pattern 1, after its `(?:^|\s)`). -/
def p1Body : Str → Option (Str × Str)
  | '/' :: s =>
    (greedySplits isPathChar s).findSome? fun pr =>
      match pr.2 with
      | '.' :: s2 =>
        let w := s2.takeWhile isWordChar
        if w = [] then none
        else some ('/' :: pr.1 ++ '.' :: w, s2.drop w.length)
      | _ => none
  | _ => none

/-- Wrap a body with the `(?:^|\s)` alternative prefix (the `^`
alternative is tried first, as in the source patterns). -/
def withBoundary (body : Str → Option (Str × Str)) : PatMatcher :=
  fun atStart s =>
    (if atStart then body s else none) <|>
      (match s with
       | c :: rest => if isWs c then body rest else none
       | [] => none)

def p1At : PatMatcher := withBoundary p1Body

/-- Body of `\.\/[\w\-.\/]+` (pattern 2). -/
def p2Body : Str → Option (Str × Str)
  | '.' :: '/' :: s =>
    let r := s.takeWhile isPathChar
    if r = [] then none else some ('.' :: '/' :: r, s.drop r.length)
  | _ => none

def p2At : PatMatcher := withBoundary p2Body

/-- Body of `~\/[\w\-.\/]+` (pattern 3). -/
def p3Body : Str → Option (Str × Str)
  | '~' :: '/' :: s =>
    let r := s.takeWhile isPathChar
    if r = [] then none else some ('~' :: '/' :: r, s.drop r.length)
  | _ => none

def p3At : PatMatcher := withBoundary p3Body

/-- Backtick-quoted names ending in a 1–5 character extension
(pattern 4). -/
def p4At : PatMatcher := fun _ s =>
  match s with
  | b :: rest =>
    if b = backtickChar then
      (greedySplits (fun c => c ≠ backtickChar) rest).findSome? fun pr =>
        match pr.2 with
        | '.' :: s2 =>
          let wrun := s2.takeWhile isWordChar
          ((List.range (min wrun.length 5)).reverse.map (fun j => j + 1)).findSome? fun k =>
            match s2.drop k with
            | b2 :: s3 => if b2 = backtickChar then some (pr.1 ++ '.' :: s2.take k, s3) else none
            | [] => none
        | _ => none
    else none
  | [] => none

/-- `"filePath":\s*"([^"]+)"` (pattern 5). -/
def p5At : PatMatcher := fun _ s =>
  if s.take 11 = "\"filePath\":".data then
    let s1 := (s.drop 11).dropWhile isWs
    match s1 with
    | q :: s2 =>
      if q = '"' then
        let content := s2.takeWhile (fun c => c ≠ '"')
        if content = [] then none
        else
          match s2.drop content.length with
          | q2 :: s3 => if q2 = '"' then some (content, s3) else none
          | [] => none
      else none
    | [] => none
  else none

/-- Replay of `matchAll`: try the matcher at every position from left
to right, resuming after each whole match.  `fuel` bounds the number
of steps; starting it at the length of the string is enough because
every step strictly shortens the suffix. -/
def scanAllGo (m : PatMatcher) : Nat → Bool → Str → List Str
  | 0, _, _ => []
  | _ + 1, _, [] => []
  | fuel + 1, atStart, c :: rest =>
    match m atStart (c :: rest) with
    | some (cap, after) =>
      if after.length < (c :: rest).length then cap :: scanAllGo m fuel false after
      else cap :: scanAllGo m fuel false rest
    | none => scanAllGo m fuel false rest

def scanAll (m : PatMatcher) (s : Str) : List Str :=
  scanAllGo m s.length true s

/-- Substring test (JavaScript `String.prototype.includes`). -/
def hasSubstring (needle : Str) : Str → Bool
  | [] => needle = []
  | c :: rest => (needle = (c :: rest).take needle.length) || hasSubstring needle rest

/-- First-seen-wins deduplication (insertion order of a JS `Set`). -/
def dedupFirst (l : List Str) : List Str :=
  l.foldl (fun acc f => if f ∈ acc then acc else acc ++ [f]) []

def patterns : List PatMatcher := [p1At, p2At, p3At, p4At, p5At]

/-- `extractFilePaths` from src/parser.ts: union the five pattern
classes in order, drop matches containing "http" or starting with
".com", dedup first-seen-first. -/
def extractFilePaths (content : Str) : List Str :=
  let raw := patterns.foldl (fun acc p => acc ++ scanAll p content) []
  dedupFirst (raw.filter fun f =>
    f ≠ [] && !hasSubstring "http".data f && !(f.take 4 = ".com".data))

/-! ### Session parsing (`parseSessionFile`) -/

structure ParsedMessage where
  index : Nat
  role : Role
  content : Str
  timestamp : Option Str
  tokenCount : Nat
  toolsUsed : List Str
  filesMentioned : List Str
deriving DecidableEq, Repr

structure ParsedSession where
  sessionId : Str
  sourcePath : Str
  projectName : Option Str
  createdAt : Option Str
  updatedAt : Option Str
  messages : List ParsedMessage
  totalTokens : Nat
  totalCost : ℚ
deriving DecidableEq, Repr

/-- The regex `\/([^\/]+)\/(?:src|app|lib|node_modules)` applied with
`String.prototype.match` (first match; capture group 1). -/
def projMatch : Str → Option Str
  | [] => none
  | c :: rest =>
    (if c = '/' then
      let seg := rest.takeWhile (fun d => d ≠ '/')
      if seg = [] then none
      else
        match rest.drop seg.length with
        | '/' :: tail =>
          if tail.take 3 = "src".data || tail.take 3 = "app".data ||
             tail.take 3 = "lib".data || tail.take 12 = "node_modules".data then
            some seg
          else none
        | _ => none
    else none) <|> projMatch rest

/-- One iteration of the project-name loop in `parseSessionFile`:
when the message's reference list is nonempty its first reference is
tested against the pattern; a message with no references and a
message whose first reference fails the pattern are both passed over
(`none`). -/
def headRefMatch (m : ParsedMessage) : Option Str :=
  match m.filesMentioned with
  | [] => none
  | f :: _ => projMatch f

/-- The project-name loop of `parseSessionFile`: walk the retained
messages; for each one with a nonempty reference list, test its first
reference; stop at the first successful match. -/
def inferProjectName : List ParsedMessage → Option Str
  | [] => none
  | m :: rest =>
    match headRefMatch m with
    | some name => some name
    | none => inferProjectName rest

structure ParseState where
  messages : List ParsedMessage
  firstTs : Option Str
  lastTs : Option Str

/-- The timestamp bookkeeping at the top of the per-line loop:
`if (parsed.timestamp) { ... }`. -/
def trackTimestamps (st : ParseState) (parsed : ClaudeMessage) : ParseState :=
  match parsed.timestamp with
  | some ts =>
    if ts ≠ [] then
      { st with
        firstTs := match st.firstTs with | none => some ts | some x => some x
        lastTs := some ts }
    else st
  | none => st

/-- The message pushed for a retained record: `index` is the current
message count, `tokenCount` is `Math.ceil(text.length / 4)`. -/
def mkMessage (n : Nat) (parsed : ClaudeMessage) (ec : Extracted) : ParsedMessage :=
  { index := n
    role := ec.role
    content := ec.text
    timestamp :=
      match parsed.timestamp with
      | some ts => if ts ≠ [] then some ts else none
      | none => none
    tokenCount := (ec.text.length + 3) / 4
    toolsUsed := ec.tools
    filesMentioned := extractFilePaths ec.text }

/-- The filter-and-push tail of the per-line loop: skip empty or
short rendered text, skip `tool_use` records, otherwise append. -/
def pushMessage (st : ParseState) (parsed : ClaudeMessage) : ParseState :=
  let ec := extractContent parsed
  if ec.text = [] || ec.text.length < 10 then st
  else if parsed.isToolUse then st
  else { st with messages := st.messages ++ [mkMessage st.messages.length parsed ec] }

/-- Body of the per-line loop of `parseSessionFile`.  A `none` line is
one that failed `JSON.parse` (skipped by the `catch`). -/
def stepLine (st : ParseState) (line : Option ClaudeMessage) : ParseState :=
  match line with
  | none => st
  | some parsed => pushMessage (trackTimestamps st parsed) parsed

/-- `parseSessionFile` from src/parser.ts.  File reading, line
splitting and `JSON.parse` are external: the function receives the
session id (derived from the file name), the source path, and the
per-line parse results. -/
def parseSessionFile (sessionId sourcePath : Str)
    (lines : List (Option ClaudeMessage)) : Option ParsedSession :=
  if lines = [] then none
  else
    let st := lines.foldl stepLine ⟨[], none, none⟩
    if st.messages = [] then none
    else
      some
        { sessionId := sessionId
          sourcePath := sourcePath
          projectName := inferProjectName st.messages
          createdAt := st.firstTs
          updatedAt := st.lastTs
          messages := st.messages
          totalTokens := (st.messages.map fun m => m.tokenCount).sum
          totalCost := 0 }

def sessionMessages : Option ParsedSession → List ParsedMessage
  | none => []
  | some s => s.messages

def sessionProjectName : Option ParsedSession → Option Str
  | none => none
  | some s => s.projectName

/-! ### Embedding batcher (src/embedder.ts)

`embed` (one network call) is the external collaborator, passed in as
`embedOne`; a rejected request is an `Except.error`.  `embedBatch`
processes consecutive windows of at most `concurrency` texts; a
`Promise.all` window fails as soon as any of its requests fails.
(The source loops forever when `concurrency = 0`; the model advances
by at least one text per window.) -/

/-- One `Promise.all` window: every request must succeed, results are
collected by input index; the first failing request (by index) fails
the window. -/
def embedWindow (embedOne : Str → Except Str (List ℚ)) :
    List Str → Except Str (List (List ℚ))
  | [] => .ok []
  | t :: ts => do
    let v ← embedOne t
    let rest ← embedWindow embedOne ts
    .ok (v :: rest)

/-- The window loop of `embedBatch`, with the number of remaining
loop iterations made explicit (each window consumes at least one
text, so starting the bound at the input length covers the whole
loop). -/
def embedBatchGo (embedOne : Str → Except Str (List ℚ)) (concurrency : Nat) :
    Nat → List Str → Except Str (List (List ℚ))
  | _, [] => .ok []
  | 0, _ :: _ => .ok []
  | fuel + 1, t :: ts => do
    let window ← embedWindow embedOne (t :: ts.take (concurrency - 1))
    let rest ← embedBatchGo embedOne concurrency fuel (ts.drop (concurrency - 1))
    .ok (window ++ rest)

def embedBatch (embedOne : Str → Except Str (List ℚ)) (concurrency : Nat)
    (texts : List Str) : Except Str (List (List ℚ)) :=
  embedBatchGo embedOne concurrency texts.length texts

/-! ### Storage model (src/db/index.ts and migrations/001_init.sql)

The store is a list of session rows and a list of chunk rows.  UUID
generation and `NOW()` are modelled by counters in the state.  Each
operation mirrors one SQL statement of src/db/index.ts. -/

def emptyMeta : Str := "\x7b\x7d".data

structure SessionRow where
  id : Nat
  session_id : Str
  source_path : Str
  project_name : Option Str
  created_at : Option Str
  updated_at : Option Str
  message_count : Nat
  total_tokens : Nat
  total_cost : ℚ
  metadata : Str
  ingested_at : Nat
deriving DecidableEq, Repr

structure ChunkRow where
  session_id : Nat
  chunk_index : Nat
  role : Role
  content : Str
  embedding : Option (List ℚ)
  token_count : Option Nat
  tools_used : List Str
  files_mentioned : List Str
  created_at : Option Str
  metadata : Str
deriving DecidableEq, Repr

structure DBState where
  sessions : List SessionRow
  chunks : List ChunkRow
  nextId : Nat
  clock : Nat
deriving DecidableEq, Repr

def initialDB : DBState := ⟨[], [], 0, 0⟩

structure SessionInput where
  session_id : Str
  source_path : Str
  project_name : Option Str
  created_at : Option Str
  updated_at : Option Str
  message_count : Nat
  total_tokens : Nat
  total_cost : ℚ
  metadata : Str
deriving DecidableEq, Repr

/-- The freshly inserted session row of `upsertSession`. -/
def insertedSessionRow (s : SessionInput) (id clock : Nat) : SessionRow :=
  { id := id
    session_id := s.session_id
    source_path := s.source_path
    project_name := s.project_name
    created_at := s.created_at
    updated_at := s.updated_at
    message_count := s.message_count
    total_tokens := s.total_tokens
    total_cost := s.total_cost
    metadata := s.metadata
    ingested_at := clock }

/-- The `DO UPDATE` arm of `upsertSession`: every derived field and
`ingested_at` are replaced on the conflicting row, while `id`,
`session_id` and `created_at` keep their stored values. -/
def updateSessionRow (s : SessionInput) (clock : Nat) (r : SessionRow) : SessionRow :=
  if r.session_id == s.session_id then
    { r with
      source_path := s.source_path
      project_name := s.project_name
      updated_at := s.updated_at
      message_count := s.message_count
      total_tokens := s.total_tokens
      total_cost := s.total_cost
      metadata := s.metadata
      ingested_at := clock }
  else r

/-- `upsertSession`: `INSERT ... ON CONFLICT (session_id) DO UPDATE
... RETURNING id`: idempotent by `session_id`, returning the existing
row id on conflict. -/
def upsertSession (s : SessionInput) (db : DBState) : Nat × DBState :=
  match db.sessions.find? (fun r => r.session_id == s.session_id) with
  | some old =>
    (old.id,
      { db with
        sessions := db.sessions.map (updateSessionRow s db.clock)
        clock := db.clock + 1 })
  | none =>
    (db.nextId,
      { db with
        sessions := db.sessions ++ [insertedSessionRow s db.nextId db.clock]
        nextId := db.nextId + 1
        clock := db.clock + 1 })

/-- The `DO UPDATE` arm of `insertChunks`: on a `(session_id,
chunk_index)` conflict the content, embedding, token count,
tool/reference lists and metadata are replaced; `role` and
`created_at` keep their stored values. -/
def updateChunkRow (c r : ChunkRow) : ChunkRow :=
  if r.session_id == c.session_id && r.chunk_index == c.chunk_index then
    { r with
      content := c.content
      embedding := c.embedding
      token_count := c.token_count
      tools_used := c.tools_used
      files_mentioned := c.files_mentioned
      metadata := c.metadata }
  else r

/-- One row of the bulk `INSERT ... ON CONFLICT (session_id,
chunk_index) DO UPDATE` of `insertChunks`. -/
def upsertChunkRow (l : List ChunkRow) (c : ChunkRow) : List ChunkRow :=
  if l.any (fun r => r.session_id == c.session_id && r.chunk_index == c.chunk_index) then
    l.map (updateChunkRow c)
  else l ++ [c]

def insertChunks (cs : List ChunkRow) (db : DBState) : DBState :=
  { db with chunks := cs.foldl upsertChunkRow db.chunks }

/-! ### Search queries (src/db/index.ts)

The Postgres operators are external collaborators: `cosDist` stands
for `<=>` (cosine distance), `tsMatch` for `to_tsvector(...) @@
plainto_tsquery(...)`, `tsRank` for `ts_rank(...)` (with `none` for an
unavailable rank, absorbed by the `COALESCE`). -/

abbrev Vec := List ℚ

structure SearchResult where
  session_id : Nat
  source_session_id : Str
  project_name : Option Str
  chunk_index : Nat
  role : Role
  content : Str
  similarity : ℚ
  created_at : Option Str
deriving DecidableEq, Repr

/-- `FROM chunks c JOIN sessions s ON c.session_id = s.id`. -/
def joinRows (db : DBState) : List (ChunkRow × SessionRow) :=
  db.chunks.flatMap fun c =>
    (db.sessions.filter fun s => s.id == c.session_id).map fun s => (c, s)

/-- `semanticSearch`: non-null embedding, optional role filter, order
by ascending cosine distance, limit, similarity reported as
`1 - distance`. -/
def semanticSearch (cosDist : Vec → Vec → ℚ) (db : DBState) (queryEmb : Vec)
    (limit : Nat) (roleFilter : Option Role) : List SearchResult :=
  let rows := (joinRows db).filter fun cs =>
    cs.1.embedding.isSome &&
      (match roleFilter with
       | some rf => cs.1.role == rf
       | none => true)
  let sorted := rows.mergeSort fun a b =>
    decide (cosDist (a.1.embedding.getD []) queryEmb ≤ cosDist (b.1.embedding.getD []) queryEmb)
  (sorted.take limit).map fun cs =>
    { session_id := cs.1.session_id
      source_session_id := cs.2.session_id
      project_name := cs.2.project_name
      chunk_index := cs.1.chunk_index
      role := cs.1.role
      content := cs.1.content
      similarity := 1 - cosDist (cs.1.embedding.getD []) queryEmb
      created_at := cs.1.created_at }

/-- The scoring expression of `hybridSearch`:
`0.7 * (1 - distance) + 0.3 * COALESCE(rank, 0)`. -/
def hybridScore (dist : ℚ) (rank : Option ℚ) : ℚ :=
  7 / 10 * (1 - dist) + 3 / 10 * rank.getD 0

/-- `hybridSearch`: non-null embedding AND lexical match, scored by
`hybridScore`, ordered by descending score, limited. -/
def hybridSearch (cosDist : Vec → Vec → ℚ) (tsMatch : Str → Str → Bool)
    (tsRank : Str → Str → Option ℚ) (db : DBState) (queryEmb : Vec)
    (keyword : Str) (limit : Nat) : List SearchResult :=
  let rows := (joinRows db).filter fun cs =>
    cs.1.embedding.isSome && tsMatch cs.1.content keyword
  let scored := rows.map fun cs =>
    ({ session_id := cs.1.session_id
       source_session_id := cs.2.session_id
       project_name := cs.2.project_name
       chunk_index := cs.1.chunk_index
       role := cs.1.role
       content := cs.1.content
       similarity := hybridScore (cosDist (cs.1.embedding.getD []) queryEmb)
         (tsRank cs.1.content keyword)
       created_at := cs.1.created_at } : SearchResult)
  ((scored.mergeSort fun a b => decide (b.similarity ≤ a.similarity)).take limit)

/-! ### The per-file ingest pipeline (src/cli.ts, ingest action) -/

inductive IngestOutcome where
  | processed
  | skippedEmpty
  | skippedError
deriving DecidableEq, Repr

structure SessionFile where
  sessionId : Str
  sourcePath : Str
  lines : List (Option ClaudeMessage)

/-- The session record passed to `upsertSession` by the ingest loop
(metadata is always the stringified empty object). -/
def sessionInputOf (session : ParsedSession) : SessionInput :=
  { session_id := session.sessionId
    source_path := session.sourcePath
    project_name := session.projectName
    created_at := session.createdAt
    updated_at := session.updatedAt
    message_count := session.messages.length
    total_tokens := session.totalTokens
    total_cost := session.totalCost
    metadata := emptyMeta }

/-- The chunk records built from the parsed messages before the
embedding phase. -/
def chunksOf (sessionDbId : Nat) (s : ParsedSession) : List ChunkRow :=
  s.messages.map fun m =>
    { session_id := sessionDbId
      chunk_index := m.index
      role := m.role
      content := m.content
      embedding := none
      token_count := some m.tokenCount
      tools_used := m.toolsUsed
      files_mentioned := m.filesMentioned
      created_at := m.timestamp
      metadata := emptyMeta }

/-- `chunks.forEach((chunk, i) => chunk.embedding = embeddings[i])`:
pair chunks with their embeddings by position; a missing position
leaves the chunk's embedding unset. -/
def applyEmbeddings : List ChunkRow → List (List ℚ) → List ChunkRow
  | [], _ => []
  | c :: cs, [] => c :: cs
  | c :: cs, e :: es => { c with embedding := some e } :: applyEmbeddings cs es

/-- Processing of one session file inside the ingest loop of
src/cli.ts.  The session row is upserted before the embedding batch
runs; an embedding failure is caught by the surrounding `try`, the
file is counted as skipped, and the chunks are never inserted. -/
def ingestFile (embedOne : Str → Except Str (List ℚ)) (withEmbed : Bool)
    (db : DBState) (file : SessionFile) : DBState × IngestOutcome :=
  match parseSessionFile file.sessionId file.sourcePath file.lines with
  | none => (db, .skippedEmpty)
  | some session =>
    if session.messages.length = 0 then (db, .skippedEmpty)
    else
      let r := upsertSession (sessionInputOf session) db
      let chunks := chunksOf r.1 session
      if withEmbed then
        match embedBatch embedOne 5 (chunks.map fun c => c.content) with
        | .error _ => (r.2, .skippedError)
        | .ok embeddings => (insertChunks (applyEmbeddings chunks embeddings) r.2, .processed)
      else (insertChunks chunks r.2, .processed)

/-! ## Lemmas about the per-line loop -/

theorem trackTimestamps_messages (st : ParseState) (parsed : ClaudeMessage) :
    (trackTimestamps st parsed).messages = st.messages := by
  unfold trackTimestamps
  cases parsed.timestamp with
  | none => rfl
  | some ts => dsimp only; split <;> rfl

theorem pushMessage_messages (st : ParseState) (parsed : ClaudeMessage) :
    (pushMessage st parsed).messages = st.messages ∨
    (pushMessage st parsed).messages =
      st.messages ++ [mkMessage st.messages.length parsed (extractContent parsed)] := by
  unfold pushMessage
  dsimp only
  split
  · exact Or.inl rfl
  · split
    · exact Or.inl rfl
    · exact Or.inr rfl

theorem foldl_stepLine_messages_invariant (P : List ParsedMessage → Prop)
    (hstep : ∀ st parsed, P st.messages → P (pushMessage st parsed).messages) :
    ∀ (lines : List (Option ClaudeMessage)) (st : ParseState),
      P st.messages → P (lines.foldl stepLine st).messages := by
  intro lines
  induction lines with
  | nil => intro st h; exact h
  | cons l ls ih =>
    intro st h
    rw [List.foldl_cons]
    refine ih _ ?_
    cases l with
    | none => exact h
    | some parsed =>
      show P (pushMessage (trackTimestamps st parsed) parsed).messages
      exact hstep _ _ (by rw [trackTimestamps_messages]; exact h)

theorem pushMessage_index_invariant (st : ParseState) (parsed : ClaudeMessage)
    (h : st.messages.map (fun m => m.index) = List.range st.messages.length) :
    (pushMessage st parsed).messages.map (fun m => m.index)
      = List.range (pushMessage st parsed).messages.length := by
  rcases pushMessage_messages st parsed with heq | heq <;> rw [heq]
  · exact h
  · simp [List.map_append, h, mkMessage, List.range_succ]

theorem extractContent_tools_length (msg : ClaudeMessage) :
    (extractContent msg).tools.length ≤ 1 := by
  cases msg <;> simp [extractContent]

theorem pushMessage_tools_invariant (st : ParseState) (parsed : ClaudeMessage)
    (h : ∀ m ∈ st.messages, m.toolsUsed.length ≤ 1) :
    ∀ m ∈ (pushMessage st parsed).messages, m.toolsUsed.length ≤ 1 := by
  rcases pushMessage_messages st parsed with heq | heq <;> rw [heq]
  · exact h
  · intro m hm
    rcases List.mem_append.1 hm with hm | hm
    · exact h m hm
    · rw [List.mem_singleton.1 hm]
      simpa [mkMessage] using extractContent_tools_length parsed

/-! ## Lemmas about the embedding batcher -/

theorem except_bind_ok {ε α β : Type} (a : α) (k : α → Except ε β) :
    (Except.ok a >>= k) = k a := rfl

theorem except_bind_error {ε α β : Type} (e : ε) (k : α → Except ε β) :
    ((Except.error e : Except ε α) >>= k) = Except.error e := rfl

theorem embedWindow_ok_length (f : Str → Except Str (List ℚ)) :
    ∀ (l : List Str) (out : List (List ℚ)),
      embedWindow f l = .ok out → out.length = l.length := by
  intro l
  induction l with
  | nil =>
    intro out h
    simp only [embedWindow] at h
    cases h
    rfl
  | cons t ts ih =>
    intro out h
    cases hft : f t with
    | error e => simp [embedWindow, hft, except_bind_error] at h
    | ok v =>
      cases hw : embedWindow f ts with
      | error e => simp [embedWindow, hft, hw, except_bind_ok, except_bind_error] at h
      | ok rest =>
        simp only [embedWindow, hft, hw, except_bind_ok] at h
        cases h
        simp [ih rest hw]

theorem embedWindow_ok_get (f : Str → Except Str (List ℚ)) :
    ∀ (l : List Str) (out : List (List ℚ)),
      embedWindow f l = .ok out →
      ∀ (i : Nat) (h : i < l.length) (h' : i < out.length),
        f (l.get ⟨i, h⟩) = .ok (out.get ⟨i, h'⟩) := by
  intro l
  induction l with
  | nil => intro out _ i h; exact absurd h (by simp)
  | cons t ts ih =>
    intro out hout i h h'
    cases hft : f t with
    | error e => simp [embedWindow, hft, except_bind_error] at hout
    | ok v =>
      cases hw : embedWindow f ts with
      | error e => simp [embedWindow, hft, hw, except_bind_ok, except_bind_error] at hout
      | ok rest =>
        simp only [embedWindow, hft, hw, except_bind_ok] at hout
        cases hout
        cases i with
        | zero => simpa using hft
        | succ j =>
          exact ih rest hw j (Nat.lt_of_succ_lt_succ h) (Nat.lt_of_succ_lt_succ h')

theorem embedWindow_error (f : Str → Except Str (List ℚ)) :
    ∀ (l : List Str) (i : Nat) (h : i < l.length) (e : Str),
      f (l.get ⟨i, h⟩) = .error e → ∃ e', embedWindow f l = .error e' := by
  intro l
  induction l with
  | nil => intro i h; exact absurd h (by simp)
  | cons t ts ih =>
    intro i h e herr
    cases i with
    | zero =>
      refine ⟨e, ?_⟩
      simp only [List.get] at herr
      simp [embedWindow, herr, except_bind_error]
    | succ j =>
      cases hft : f t with
      | error e2 => exact ⟨e2, by simp [embedWindow, hft, except_bind_error]⟩
      | ok v =>
        obtain ⟨e', he'⟩ := ih j (Nat.lt_of_succ_lt_succ h) e herr
        exact ⟨e', by simp [embedWindow, hft, he', except_bind_ok, except_bind_error]⟩

theorem embedWindow_append (f : Str → Except Str (List ℚ)) (xs ys : List Str) :
    embedWindow f (xs ++ ys) =
      (do
        let a ← embedWindow f xs
        let b ← embedWindow f ys
        Except.ok (a ++ b)) := by
  induction xs with
  | nil =>
    simp only [List.nil_append, embedWindow, except_bind_ok]
    cases embedWindow f ys <;> simp [except_bind_ok, except_bind_error]
  | cons t ts ih =>
    cases hft : f t with
    | error e => simp [embedWindow, hft, except_bind_error]
    | ok v =>
      simp only [List.cons_append, embedWindow, hft, except_bind_ok, List.append_eq]
      rw [ih]
      cases hts : embedWindow f ts with
      | error e => simp [except_bind_error]
      | ok a =>
        simp only [except_bind_ok]
        cases hys : embedWindow f ys with
        | error e => simp [except_bind_error]
        | ok b => simp [except_bind_ok]

theorem embedBatchGo_eq_window (f : Str → Except Str (List ℚ)) (c : Nat) :
    ∀ (n : Nat) (l : List Str), l.length ≤ n →
      embedBatchGo f c n l = embedWindow f l := by
  intro n
  induction n with
  | zero =>
    intro l h
    rw [List.length_eq_zero.1 (Nat.le_zero.1 h)]
    rfl
  | succ n ih =>
    intro l h
    match l with
    | [] => rfl
    | t :: ts =>
      rw [embedBatchGo]
      rw [ih (ts.drop (c - 1)) (by
        simp only [List.length_cons] at h
        simp only [List.length_drop]
        omega)]
      have hsplit : (t :: ts : List Str) = (t :: ts.take (c - 1)) ++ ts.drop (c - 1) := by
        rw [List.cons_append, List.take_append_drop]
      rw [hsplit, embedWindow_append]

theorem embedBatch_eq_window (f : Str → Except Str (List ℚ)) (c : Nat)
    (texts : List Str) : embedBatch f c texts = embedWindow f texts :=
  embedBatchGo_eq_window f c texts.length texts (Nat.le_refl _)

/-! ## Claim theorems: C2, C7, C10 -/

/-- C2: for every session file, the sequence indices of the emitted
chunks are exactly `0..n-1` in encounter order with no gaps, where `n`
is the number of retained chunks, regardless of how many records were
filtered out. -/
theorem chunk_indices_dense (sessionId sourcePath : Str)
    (lines : List (Option ClaudeMessage)) :
    (sessionMessages (parseSessionFile sessionId sourcePath lines)).map (fun m => m.index)
      = List.range (sessionMessages (parseSessionFile sessionId sourcePath lines)).length := by
  unfold parseSessionFile
  split
  · simp [sessionMessages]
  · dsimp only
    split
    · simp [sessionMessages]
    · simp only [sessionMessages]
      exact foldl_stepLine_messages_invariant
        (fun msgs => msgs.map (fun m => m.index) = List.range msgs.length)
        pushMessage_index_invariant lines _ (by simp)

/-- C7: the embedding batcher, when it succeeds, returns one vector
per input text with the vector at each index being the embedding of
the text at that index; if any single request fails, the whole call
fails with an error and no partial result. -/
theorem embedBatch_spec (f : Str → Except Str (List ℚ)) (c : Nat) (texts : List Str) :
    (∀ out, embedBatch f c texts = .ok out →
        out.length = texts.length ∧
        ∀ (i : Nat) (h : i < texts.length) (h' : i < out.length),
          f (texts.get ⟨i, h⟩) = .ok (out.get ⟨i, h'⟩)) ∧
    (∀ (i : Nat) (h : i < texts.length) (e : Str),
        f (texts.get ⟨i, h⟩) = .error e →
        ∃ e', embedBatch f c texts = .error e') := by
  refine ⟨fun out hok => ?_, fun i h e herr => ?_⟩
  · rw [embedBatch_eq_window] at hok
    exact ⟨embedWindow_ok_length f texts out hok, embedWindow_ok_get f texts out hok⟩
  · obtain ⟨e', he'⟩ := embedWindow_error f texts i h e herr
    exact ⟨e', by rw [embedBatch_eq_window]; exact he'⟩

/-- Witness for C7: a batch whose second text fails embeds to a
whole-call failure. -/
theorem embedBatch_spec_witness :
    ∃ e', embedBatch
        (fun s => if s = "bad".data then .error "down".data else .ok [(1 : ℚ)])
        5 ["good".data, "bad".data] = .error e' :=
  (embedBatch_spec (fun s => if s = "bad".data then .error "down".data else .ok [(1 : ℚ)])
    5 ["good".data, "bad".data]).2 1 (by decide) "down".data (by rfl)

/-- C10: the list of invoked tool names of a classified record has at
most one element — the singleton of the record's tool name for a tool
result, empty for user and assistant records — and hence every
emitted chunk carries at most one tool name. -/
theorem toolsUsed_at_most_one :
    (∀ msg : ClaudeMessage, (extractContent msg).tools.length ≤ 1) ∧
    (∀ ts name out prev, (extractContent (.toolResult ts name out prev)).tools = [name]) ∧
    (∀ ts c, (extractContent (.user ts c)).tools = []) ∧
    (∀ ts c, (extractContent (.assistant ts c)).tools = []) ∧
    (∀ sessionId sourcePath lines,
      (sessionMessages (parseSessionFile sessionId sourcePath lines)).Forall
        (fun m => m.toolsUsed.length ≤ 1)) := by
  refine ⟨extractContent_tools_length, fun _ _ _ _ => rfl, fun _ _ => rfl, fun _ _ => rfl, ?_⟩
  intro sessionId sourcePath lines
  rw [List.forall_iff_forall_mem]
  unfold parseSessionFile
  split
  · simp [sessionMessages]
  · dsimp only
    split
    · simp [sessionMessages]
    · simp only [sessionMessages]
      exact foldl_stepLine_messages_invariant
        (fun msgs => ∀ m ∈ msgs, m.toolsUsed.length ≤ 1)
        pushMessage_tools_invariant lines _ (by simp)

/-! ## Lemmas about trimming and the tool-result rendering -/

theorem length_dropWhile_le (p : Char → Bool) (l : Str) :
    (l.dropWhile p).length ≤ l.length := by
  induction l with
  | nil => simp
  | cons c cs ih =>
    rw [List.dropWhile_cons]
    by_cases h : p c
    · rw [if_pos h]
      exact le_trans ih (by simp)
    · rw [if_neg h]

theorem trimStr_eq_trimRight_of_cons (c : Char) (l : Str) (h : isWs c = false) :
    trimStr (c :: l) = trimRight (c :: l) := by
  simp [trimStr, trimLeft, List.dropWhile_cons, h]

theorem trimRight_append_single (s : Str) (c : Char) (h : isWs c = false) :
    trimRight (s ++ [c]) = s ++ [c] := by
  simp [trimRight, List.reverse_append, List.dropWhile_cons, h]

theorem trimRight_append_ws (s : Str) (c : Char) (h : isWs c = true) :
    trimRight (s ++ [c]) = trimRight s := by
  simp [trimRight, List.reverse_append, List.dropWhile_cons, h]

theorem trimRight_eq_self_of_getLast (l : Str) (c : Char)
    (h : l.getLast? = some c) (hc : isWs c = false) : trimRight l = l := by
  have hd : l.dropLast ++ [c] = l := List.dropLast_append_getLast? c h
  rw [← hd]
  exact trimRight_append_single _ c hc

theorem trimRight_append_length_ge (s t : Str) :
    (trimRight s).length ≤ (trimRight (s ++ t)).length := by
  simp only [trimRight, List.reverse_append, List.length_reverse]
  rw [List.dropWhile_append]
  split
  · exact Nat.le_refl _
  · rw [List.length_append, List.length_reverse]
    calc (List.dropWhile isWs s.reverse).length
        ≤ s.reverse.length := length_dropWhile_le _ _
      _ = s.length := List.length_reverse s
      _ ≤ (List.dropWhile isWs t.reverse).length + s.length := Nat.le_add_left _ _

theorem toolResultHeader_append_cons (name x : Str) :
    toolResultHeader name ++ x
      = '[' :: ("Tool Result: ".data ++ (name ++ ("]".data ++ x))) := by
  simp [toolResultHeader, show "[Tool Result: ".data = '[' :: "Tool Result: ".data from rfl]

theorem toolResultHeader_concat (name : Str) :
    toolResultHeader name = ("[Tool Result: ".data ++ name) ++ [']'] := by
  simp [toolResultHeader, show "]".data = [']'] from rfl]

theorem trimRight_toolResultHeader (name : Str) :
    trimRight (toolResultHeader name) = toolResultHeader name := by
  rw [toolResultHeader_concat]
  exact trimRight_append_single _ ']' rfl

theorem toolResultHeader_length (name : Str) :
    (toolResultHeader name).length = 15 + name.length := by
  simp [toolResultHeader, List.length_append,
    show ("[Tool Result: ".data).length = 14 from rfl,
    show ("]".data).length = 1 from rfl]
  omega

theorem trimStr_toolResultHeader_append (name tail : Str) :
    trimStr (toolResultHeader name ++ tail) = trimRight (toolResultHeader name ++ tail) := by
  rw [toolResultHeader_append_cons, trimStr_eq_trimRight_of_cons '[' _ rfl,
    ← toolResultHeader_append_cons]

/-! ## Claim theorems: C6, C8 -/

/-- C6 counterexample: for a tool result with empty output the source
trims the rendered text, so it is the bare header `"[Tool Result:
read]"` and not `"[Tool Result: read]\n"` followed by the (empty)
output as the claim states. -/
theorem toolResult_render_trim_counterexample :
    (extractContent (.toolResult none "read".data none none)).text
        = "[Tool Result: read]".data ∧
    (extractContent (.toolResult none "read".data none none)).text
        ≠ "[Tool Result: read]\n".data := by
  constructor
  · decide
  · decide

/-- C6 (amended): the rendered tool-result text is the whitespace-trim
of `"[Tool Result: <name>]\n<output>"`.  When the output is longer
than 1000 characters it is truncated to exactly its first 1000
characters plus the marker `"..."` and the claimed equation holds
verbatim; when the output is nonempty, at most 1000 characters and
ends in a non-whitespace character the equation also holds verbatim;
when the output is empty the text is the bare header with no trailing
newline. -/
theorem toolResult_render_spec (ts : Option Str) (name : Str) (out prev : Option Str) :
    ((truthyOrElse out (truthyOrElse prev [])).length > 1000 →
      (extractContent (.toolResult ts name out prev)).text
        = toolResultHeader name ++ '\n' ::
            ((truthyOrElse out (truthyOrElse prev [])).take 1000 ++ "...".data)) ∧
    (∀ c, (truthyOrElse out (truthyOrElse prev [])).getLast? = some c →
      isWs c = false →
      (truthyOrElse out (truthyOrElse prev [])).length ≤ 1000 →
      (extractContent (.toolResult ts name out prev)).text
        = toolResultHeader name ++ '\n' :: truthyOrElse out (truthyOrElse prev [])) ∧
    (truthyOrElse out (truthyOrElse prev []) = [] →
      (extractContent (.toolResult ts name out prev)).text = toolResultHeader name) := by
  refine ⟨fun h => ?_, fun c hc hcw h => ?_, fun h => ?_⟩
  · show trimStr (toolResultHeader name ++ '\n' ::
        (if (truthyOrElse out (truthyOrElse prev [])).length > 1000
         then (truthyOrElse out (truthyOrElse prev [])).take 1000 ++ "...".data
         else truthyOrElse out (truthyOrElse prev []))) = _
    rw [if_pos h, trimStr_toolResultHeader_append]
    have hx : toolResultHeader name ++ '\n' ::
        ((truthyOrElse out (truthyOrElse prev [])).take 1000 ++ "...".data)
      = (toolResultHeader name ++ '\n' ::
          ((truthyOrElse out (truthyOrElse prev [])).take 1000 ++ "..".data)) ++ ['.'] := by
      simp [show "...".data = "..".data ++ ['.'] from rfl]
    rw [hx, trimRight_append_single _ '.' rfl]
  · show trimStr (toolResultHeader name ++ '\n' ::
        (if (truthyOrElse out (truthyOrElse prev [])).length > 1000
         then (truthyOrElse out (truthyOrElse prev [])).take 1000 ++ "...".data
         else truthyOrElse out (truthyOrElse prev []))) = _
    rw [if_neg (by omega), trimStr_toolResultHeader_append]
    have hd : (truthyOrElse out (truthyOrElse prev [])).dropLast ++ [c]
        = truthyOrElse out (truthyOrElse prev []) :=
      List.dropLast_append_getLast? c hc
    have hx : toolResultHeader name ++ '\n' :: truthyOrElse out (truthyOrElse prev [])
        = (toolResultHeader name ++ '\n' ::
            (truthyOrElse out (truthyOrElse prev [])).dropLast) ++ [c] := by
      rw [← hd]
      simp
    rw [hx, trimRight_append_single _ c hcw, ← hx]
  · show trimStr (toolResultHeader name ++ '\n' ::
        (if (truthyOrElse out (truthyOrElse prev [])).length > 1000
         then (truthyOrElse out (truthyOrElse prev [])).take 1000 ++ "...".data
         else truthyOrElse out (truthyOrElse prev []))) = _
    rw [h]
    rw [if_neg (by simp)]
    rw [trimStr_toolResultHeader_append]
    rw [show toolResultHeader name ++ ['\n'] = toolResultHeader name ++ ['\n'] from rfl]
    rw [trimRight_append_ws _ '\n' rfl, trimRight_toolResultHeader]

/-- Witness for C6: a tool result whose output and preview are both
absent renders as the bare header. -/
theorem toolResult_render_spec_witness :
    (extractContent (.toolResult none "read".data none none)).text
      = toolResultHeader "read".data :=
  (toolResult_render_spec none "read".data none none).2.2 rfl

theorem toolResult_min_length (ts : Option Str) (name : Str) (out prev : Option Str) :
    15 ≤ (extractContent (.toolResult ts name out prev)).text.length := by
  have key : ∀ tail : Str,
      15 ≤ (trimStr (toolResultHeader name ++ '\n' :: tail)).length := by
    intro tail
    rw [trimStr_toolResultHeader_append]
    calc (15 : Nat)
        ≤ (toolResultHeader name).length := by rw [toolResultHeader_length]; omega
      _ = (trimRight (toolResultHeader name)).length := by rw [trimRight_toolResultHeader]
      _ ≤ (trimRight (toolResultHeader name ++ '\n' :: tail)).length :=
          trimRight_append_length_ge _ _
  exact key _

theorem pushMessage_appends (st : ParseState) (parsed : ClaudeMessage)
    (hlen : 10 ≤ (extractContent parsed).text.length)
    (hnotool : parsed.isToolUse = false) :
    (pushMessage st parsed).messages
      = st.messages ++ [mkMessage st.messages.length parsed (extractContent parsed)] := by
  have htext : ¬(extractContent parsed).text = [] := by
    intro h
    rw [h] at hlen
    simp at hlen
  have hshort : ¬(extractContent parsed).text.length < 10 := by omega
  simp [pushMessage, htext, hshort, hnotool]

/-- C8 counterexample: a tool-result record whose output and preview
are both absent (an empty tool echo) still produces a chunk, with the
bare header as its content. -/
theorem empty_tool_echo_emits_chunk_counterexample :
    (sessionMessages (parseSessionFile "s".data "p".data
        [some (.toolResult none "read".data none none)])).map (fun m => m.content)
      = ["[Tool Result: read]".data] := by decide

/-- C8 (amended): a tool-result record always renders at least the
15-character bracketed header, so the uniform under-10-characters
filter never discards it: even an empty tool echo yields a chunk. -/
theorem toolResult_never_filtered :
    (∀ ts name out prev,
      15 ≤ (extractContent (.toolResult ts name out prev)).text.length) ∧
    (∀ sessionId sourcePath ts name out prev,
      (sessionMessages (parseSessionFile sessionId sourcePath
          [some (.toolResult ts name out prev)])).length = 1) := by
  refine ⟨toolResult_min_length, ?_⟩
  intro sessionId sourcePath ts name out prev
  have hm : (List.foldl stepLine ⟨[], none, none⟩
      [some (.toolResult ts name out prev)]).messages
      = [mkMessage 0 (.toolResult ts name out prev)
          (extractContent (.toolResult ts name out prev))] := by
    rw [List.foldl_cons, List.foldl_nil]
    show (pushMessage (trackTimestamps ⟨[], none, none⟩ (.toolResult ts name out prev))
      (.toolResult ts name out prev)).messages = _
    rw [pushMessage_appends _ _
      (le_trans (by omega) (toolResult_min_length ts name out prev)) rfl]
    rw [trackTimestamps_messages]
    rfl
  unfold parseSessionFile
  rw [if_neg (by simp)]
  dsimp only
  rw [hm]
  rw [if_neg (by simp)]
  simp [sessionMessages]

/-! ## Claim theorems: C5 -/

theorem inferProjectName_cons_none (m : ParsedMessage) (rest : List ParsedMessage)
    (h : headRefMatch m = none) :
    inferProjectName (m :: rest) = inferProjectName rest := by
  rw [inferProjectName, h]

theorem inferProjectName_cons_some (m : ParsedMessage) (rest : List ParsedMessage)
    (name : Str) (h : headRefMatch m = some name) :
    inferProjectName (m :: rest) = some name := by
  rw [inferProjectName, h]

theorem inferProjectName_none_of_all_fail (msgs : List ParsedMessage)
    (h : ∀ m ∈ msgs, headRefMatch m = none) : inferProjectName msgs = none := by
  induction msgs with
  | nil => rfl
  | cons m rest ih =>
    rw [inferProjectName_cons_none m rest (h m (by simp))]
    exact ih fun m' hm' => h m' (by simp [hm'])

theorem inferProjectName_first_match (pre : List ParsedMessage) (m : ParsedMessage)
    (post : List ParsedMessage) (name : Str)
    (hpre : ∀ m' ∈ pre, headRefMatch m' = none)
    (hm : headRefMatch m = some name) :
    inferProjectName (pre ++ m :: post) = some name := by
  induction pre with
  | nil => exact inferProjectName_cons_some m post name hm
  | cons p pre' ih =>
    rw [List.cons_append, inferProjectName_cons_none p _ (hpre p (by simp))]
    exact ih fun m' hm' => hpre m' (by simp [hm'])

/-- C5 counterexample: in a session whose first reference-bearing
chunk has the non-matching first reference `/tmp/notes.txt`, the code
keeps scanning and infers `myapp` from the second chunk, whereas the
claim says the project name would be absent. -/
theorem inferProjectName_first_chunk_counterexample :
    ((sessionMessages (parseSessionFile "s".data "p".data
        [some (.user none "see /tmp/notes.txt okay".data),
         some (.user none "open /home/alice/myapp/src/index.ts now".data)])).map
          (fun m => m.filesMentioned)
      = [["/tmp/notes.txt".data], ["/home/alice/myapp/src/index.ts".data]]) ∧
    projMatch "/tmp/notes.txt".data = none ∧
    sessionProjectName (parseSessionFile "s".data "p".data
        [some (.user none "see /tmp/notes.txt okay".data),
         some (.user none "open /home/alice/myapp/src/index.ts now".data)])
      = some "myapp".data := by
  refine ⟨by decide, by decide, by decide⟩

/-- C5 (amended): project-name inference scans the chunks in emission
order and, for every chunk with a nonempty reference set, tests that
chunk's first reference against the parent-segment pattern; the first
chunk whose first reference matches supplies the project name, and
the name is absent only when no chunk's first reference matches.  The
reference `/home/alice/myapp/src/index.ts` still yields `myapp`. -/
theorem inferProjectName_scans_all_chunks :
    (∀ msgs : List ParsedMessage,
      (∀ m ∈ msgs, headRefMatch m = none) → inferProjectName msgs = none) ∧
    (∀ (pre : List ParsedMessage) (m : ParsedMessage) (post : List ParsedMessage)
        (name : Str),
      (∀ m' ∈ pre, headRefMatch m' = none) →
      headRefMatch m = some name →
      inferProjectName (pre ++ m :: post) = some name) ∧
    projMatch "/home/alice/myapp/src/index.ts".data = some "myapp".data :=
  ⟨inferProjectName_none_of_all_fail, inferProjectName_first_match, by decide⟩

/-- Witness for C5 (amended): a two-chunk list whose first chunk's
first reference fails the pattern and whose second chunk's first
reference matches infers the second chunk's project name. -/
theorem inferProjectName_scans_all_chunks_witness :
    inferProjectName
      [⟨0, .user, [], none, 0, [], ["/tmp/notes.txt".data]⟩,
       ⟨1, .user, [], none, 0, [], ["/home/alice/myapp/src/index.ts".data]⟩]
      = some "myapp".data :=
  inferProjectName_scans_all_chunks.2.1
    [⟨0, .user, [], none, 0, [], ["/tmp/notes.txt".data]⟩]
    ⟨1, .user, [], none, 0, [], ["/home/alice/myapp/src/index.ts".data]⟩
    [] "myapp".data
    (by intro m' hm'; rw [List.mem_singleton.1 hm']; decide)
    (by decide)

/-! ## Lemmas about the storage model -/

theorem updateSessionRow_session_id (s : SessionInput) (clock : Nat) (r : SessionRow) :
    (updateSessionRow s clock r).session_id = r.session_id := by
  unfold updateSessionRow
  split <;> rfl

theorem upsertSession_chunks (s : SessionInput) (db : DBState) :
    (upsertSession s db).2.chunks = db.chunks := by
  unfold upsertSession
  cases db.sessions.find? (fun r => r.session_id == s.session_id) <;> rfl

theorem upsertSession_mem (s : SessionInput) (db : DBState) :
    ∃ r ∈ (upsertSession s db).2.sessions, r.session_id = s.session_id := by
  unfold upsertSession
  cases hf : db.sessions.find? (fun r => r.session_id == s.session_id) with
  | none =>
    exact ⟨insertedSessionRow s db.nextId db.clock, by simp, rfl⟩
  | some old =>
    have hmem := List.mem_of_find?_eq_some hf
    have hpred := List.find?_some hf
    refine ⟨updateSessionRow s db.clock old, List.mem_map_of_mem _ hmem, ?_⟩
    rw [updateSessionRow_session_id]
    exact eq_of_beq hpred

/-- Presence of a `(session, chunk_index)` key among stored chunk rows. -/
def hasKey (l : List ChunkRow) (sid idx : Nat) : Bool :=
  l.any fun r => r.session_id == sid && r.chunk_index == idx

theorem updateChunkRow_session_id (c r : ChunkRow) :
    (updateChunkRow c r).session_id = r.session_id := by
  unfold updateChunkRow
  split <;> rfl

theorem updateChunkRow_chunk_index (c r : ChunkRow) :
    (updateChunkRow c r).chunk_index = r.chunk_index := by
  unfold updateChunkRow
  split <;> rfl

theorem hasKey_upsertChunkRow_self (l : List ChunkRow) (c : ChunkRow) :
    hasKey (upsertChunkRow l c) c.session_id c.chunk_index = true := by
  unfold upsertChunkRow
  split
  · rename_i hcond
    rw [List.any_eq_true] at hcond
    obtain ⟨r, hr, hpred⟩ := hcond
    unfold hasKey
    rw [List.any_eq_true]
    refine ⟨updateChunkRow c r, List.mem_map_of_mem _ hr, ?_⟩
    show ((updateChunkRow c r).session_id == c.session_id &&
      (updateChunkRow c r).chunk_index == c.chunk_index) = true
    rw [updateChunkRow_session_id, updateChunkRow_chunk_index]
    exact hpred
  · unfold hasKey
    rw [List.any_eq_true]
    exact ⟨c, by simp, by simp⟩

theorem hasKey_upsertChunkRow_mono (l : List ChunkRow) (c : ChunkRow) (sid idx : Nat)
    (h : hasKey l sid idx = true) : hasKey (upsertChunkRow l c) sid idx = true := by
  unfold hasKey at h
  rw [List.any_eq_true] at h
  obtain ⟨r, hr, hpred⟩ := h
  unfold upsertChunkRow
  split
  · unfold hasKey
    rw [List.any_eq_true]
    refine ⟨updateChunkRow c r, List.mem_map_of_mem _ hr, ?_⟩
    show ((updateChunkRow c r).session_id == sid &&
      (updateChunkRow c r).chunk_index == idx) = true
    rw [updateChunkRow_session_id, updateChunkRow_chunk_index]
    exact hpred
  · unfold hasKey
    rw [List.any_eq_true]
    exact ⟨r, List.mem_append_left _ hr, hpred⟩

theorem upsertChunkRow_length_of_hasKey (l : List ChunkRow) (c : ChunkRow)
    (h : hasKey l c.session_id c.chunk_index = true) :
    (upsertChunkRow l c).length = l.length := by
  unfold hasKey at h
  unfold upsertChunkRow
  rw [if_pos h]
  exact List.length_map _ _

theorem foldl_upsert_hasKey_mono (cs : List ChunkRow) (l : List ChunkRow)
    (sid idx : Nat) (h : hasKey l sid idx = true) :
    hasKey (cs.foldl upsertChunkRow l) sid idx = true := by
  induction cs generalizing l with
  | nil => exact h
  | cons c cs ih =>
    rw [List.foldl_cons]
    exact ih _ (hasKey_upsertChunkRow_mono _ _ _ _ h)

theorem foldl_upsert_hasKey_all (cs : List ChunkRow) (l : List ChunkRow) :
    ∀ c ∈ cs, hasKey (cs.foldl upsertChunkRow l) c.session_id c.chunk_index = true := by
  induction cs generalizing l with
  | nil => intro c hc; simp at hc
  | cons c0 cs ih =>
    intro c hc
    rw [List.foldl_cons]
    rcases List.mem_cons.1 hc with rfl | hc
    · exact foldl_upsert_hasKey_mono cs _ _ _ (hasKey_upsertChunkRow_self l c)
    · exact ih _ c hc

theorem foldl_upsert_length_of_all (cs : List ChunkRow) (l : List ChunkRow)
    (h : ∀ c ∈ cs, hasKey l c.session_id c.chunk_index = true) :
    (cs.foldl upsertChunkRow l).length = l.length := by
  induction cs generalizing l with
  | nil => rfl
  | cons c0 cs ih =>
    rw [List.foldl_cons]
    rw [ih _ (fun c hc => hasKey_upsertChunkRow_mono _ _ _ _ (h c (by simp [hc])))]
    exact upsertChunkRow_length_of_hasKey l c0 (h c0 (by simp))

theorem chunksOf_contents (id : Nat) (s : ParsedSession) :
    (chunksOf id s).map (fun c => c.content) = s.messages.map (fun m => m.content) := by
  simp [chunksOf, List.map_map]

theorem parseSessionFile_some (sessionId sourcePath : Str)
    (lines : List (Option ClaudeMessage)) (s : ParsedSession)
    (h : parseSessionFile sessionId sourcePath lines = some s) :
    s.sessionId = sessionId ∧ s.sourcePath = sourcePath ∧ s.messages ≠ [] := by
  unfold parseSessionFile at h
  split at h
  · exact absurd h (by simp)
  · dsimp only at h
    split at h
    · exact absurd h (by simp)
    · rename_i hne
      cases h
      exact ⟨rfl, rfl, hne⟩

theorem ingestFile_ok (f : Str → Except Str (List ℚ)) (withEmbed : Bool) (db : DBState)
    (file : SessionFile) (session : ParsedSession) (embs : List (List ℚ))
    (hparse : parseSessionFile file.sessionId file.sourcePath file.lines = some session)
    (hembs : embedBatch f 5 (session.messages.map fun m => m.content) = .ok embs) :
    ingestFile f withEmbed db file
      = (insertChunks
          (if withEmbed then
            applyEmbeddings (chunksOf (upsertSession (sessionInputOf session) db).1 session) embs
           else chunksOf (upsertSession (sessionInputOf session) db).1 session)
          (upsertSession (sessionInputOf session) db).2,
         .processed) := by
  obtain ⟨_, _, hne⟩ := parseSessionFile_some _ _ _ _ hparse
  unfold ingestFile
  rw [hparse]
  dsimp only
  rw [if_neg (by rw [List.length_eq_zero]; exact hne)]
  cases withEmbed with
  | false => rfl
  | true =>
    rw [if_pos rfl]
    rw [chunksOf_contents, hembs]
    rfl

theorem ingestFile_embed_error (f : Str → Except Str (List ℚ)) (db : DBState)
    (file : SessionFile) (session : ParsedSession) (e : Str)
    (hparse : parseSessionFile file.sessionId file.sourcePath file.lines = some session)
    (hembs : embedBatch f 5 (session.messages.map fun m => m.content) = .error e) :
    ingestFile f true db file
      = ((upsertSession (sessionInputOf session) db).2, .skippedError) := by
  obtain ⟨_, _, hne⟩ := parseSessionFile_some _ _ _ _ hparse
  unfold ingestFile
  rw [hparse]
  dsimp only
  rw [if_neg (by rw [List.length_eq_zero]; exact hne)]
  rw [if_pos rfl]
  rw [chunksOf_contents, hembs]

/-! ## Claim theorems: C1, C9 -/

/-- C1 counterexample: when the embedding batch fails after a
successful parse, the file is counted as skipped and no chunks are
written, but a session row for the file has already been upserted —
the store is not left unchanged with respect to that file. -/
theorem ingest_embed_failure_writes_session_counterexample :
    ((ingestFile (fun _ => .error "down".data) true initialDB
        ⟨"s".data, "p".data, [some (.user none "hello world this is fine".data)]⟩).1.sessions.map
          (fun r => r.session_id) = ["s".data]) ∧
    (ingestFile (fun _ => .error "down".data) true initialDB
        ⟨"s".data, "p".data, [some (.user none "hello world this is fine".data)]⟩).1.chunks
      = [] ∧
    (ingestFile (fun _ => .error "down".data) true initialDB
        ⟨"s".data, "p".data, [some (.user none "hello world this is fine".data)]⟩).2
      = .skippedError := by
  refine ⟨by decide, by decide, by decide⟩

/-- C1 (amended): when the embedding batch fails after a successful
parse, the file is recorded as skipped and no chunk rows are written
for it (the chunk store is untouched); however the session row has
already been upserted before the embedding phase, so a session record
for the file persists in the store. -/
theorem ingest_embed_failure_leaves_session_row (f : Str → Except Str (List ℚ))
    (db : DBState) (file : SessionFile) (session : ParsedSession) (e : Str)
    (hparse : parseSessionFile file.sessionId file.sourcePath file.lines = some session)
    (hembs : embedBatch f 5 (session.messages.map fun m => m.content) = .error e) :
    (ingestFile f true db file).2 = .skippedError ∧
    (ingestFile f true db file).1.chunks = db.chunks ∧
    ∃ r ∈ (ingestFile f true db file).1.sessions, r.session_id = file.sessionId := by
  obtain ⟨hsid, _, _⟩ := parseSessionFile_some _ _ _ _ hparse
  rw [ingestFile_embed_error f db file session e hparse hembs]
  refine ⟨rfl, upsertSession_chunks _ _, ?_⟩
  obtain ⟨r, hr, hrid⟩ := upsertSession_mem (sessionInputOf session) db
  exact ⟨r, hr, by rw [hrid]; exact hsid⟩

/-- Witness for C1 (amended): a concrete one-line file with an
always-failing embedder. -/
theorem ingest_embed_failure_leaves_session_row_witness :
    (ingestFile (fun _ => .error "down".data) true initialDB
        ⟨"s".data, "p".data, [some (.user none "hello world this is fine".data)]⟩).2
      = .skippedError ∧
    (ingestFile (fun _ => .error "down".data) true initialDB
        ⟨"s".data, "p".data, [some (.user none "hello world this is fine".data)]⟩).1.chunks
      = initialDB.chunks ∧
    ∃ r ∈ (ingestFile (fun _ => .error "down".data) true initialDB
        ⟨"s".data, "p".data, [some (.user none "hello world this is fine".data)]⟩).1.sessions,
      r.session_id = "s".data :=
  ingest_embed_failure_leaves_session_row (fun _ => .error "down".data) initialDB
    ⟨"s".data, "p".data, [some (.user none "hello world this is fine".data)]⟩
    { sessionId := "s".data
      sourcePath := "p".data
      projectName := none
      createdAt := none
      updatedAt := none
      messages := [{ index := 0
                     role := .user
                     content := "hello world this is fine".data
                     timestamp := none
                     tokenCount := 6
                     toolsUsed := []
                     filesMentioned := [] }]
      totalTokens := 6
      totalCost := 0 }
    "down".data (by decide) (by rfl)

theorem insertChunks_sessions (cs : List ChunkRow) (db : DBState) :
    (insertChunks cs db).sessions = db.sessions := rfl

theorem insertChunks_chunks (cs : List ChunkRow) (db : DBState) :
    (insertChunks cs db).chunks = cs.foldl upsertChunkRow db.chunks := rfl

theorem upsertSession_found_singleton (s : SessionInput) (db : DBState)
    (row : SessionRow) (hrow : db.sessions = [row])
    (hsid : row.session_id = s.session_id) :
    upsertSession s db
      = (row.id,
          { db with
            sessions := [updateSessionRow s db.clock row]
            clock := db.clock + 1 }) := by
  unfold upsertSession
  rw [hrow]
  rw [List.find?_cons_of_pos _ (by rw [hsid]; exact beq_self_eq_true _)]
  rfl

/-- C9: ingesting the same session file twice, starting from an empty
store, yields exactly one session row for its identifier — the second
ingestion updates the existing row in place instead of inserting a
duplicate — and leaves the chunk count unchanged, because chunks are
upserted by the `(session, sequence index)` key. -/
theorem reingest_idempotent (f : Str → Except Str (List ℚ)) (withEmbed : Bool)
    (file : SessionFile) (session : ParsedSession) (embs : List (List ℚ))
    (hparse : parseSessionFile file.sessionId file.sourcePath file.lines = some session)
    (hembs : embedBatch f 5 (session.messages.map fun m => m.content) = .ok embs) :
    ((ingestFile f withEmbed (ingestFile f withEmbed initialDB file).1 file).1.sessions.filter
        (fun r => r.session_id == file.sessionId)).length = 1 ∧
    (ingestFile f withEmbed (ingestFile f withEmbed initialDB file).1 file).1.sessions.length
      = 1 ∧
    (ingestFile f withEmbed (ingestFile f withEmbed initialDB file).1 file).1.chunks.length
      = (ingestFile f withEmbed initialDB file).1.chunks.length ∧
    (ingestFile f withEmbed initialDB file).2 = .processed ∧
    (ingestFile f withEmbed (ingestFile f withEmbed initialDB file).1 file).2 = .processed := by
  obtain ⟨hsid, _, _⟩ := parseSessionFile_some _ _ _ _ hparse
  have h1 := ingestFile_ok f withEmbed initialDB file session embs hparse hembs
  have hu1 : upsertSession (sessionInputOf session) initialDB
      = (0, ⟨[insertedSessionRow (sessionInputOf session) 0 0], [], 1, 1⟩) := rfl
  have hdb1 : (ingestFile f withEmbed initialDB file).1
      = ⟨[insertedSessionRow (sessionInputOf session) 0 0],
          (if withEmbed then applyEmbeddings (chunksOf 0 session) embs
           else chunksOf 0 session).foldl upsertChunkRow [], 1, 1⟩ := by
    rw [h1, hu1]
    rfl
  have h2 := ingestFile_ok f withEmbed
    ⟨[insertedSessionRow (sessionInputOf session) 0 0],
      (if withEmbed then applyEmbeddings (chunksOf 0 session) embs
       else chunksOf 0 session).foldl upsertChunkRow [], 1, 1⟩
    file session embs hparse hembs
  have hu2 : upsertSession (sessionInputOf session)
      ⟨[insertedSessionRow (sessionInputOf session) 0 0],
        (if withEmbed then applyEmbeddings (chunksOf 0 session) embs
         else chunksOf 0 session).foldl upsertChunkRow [], 1, 1⟩
      = (0,
          ⟨[updateSessionRow (sessionInputOf session) 1
              (insertedSessionRow (sessionInputOf session) 0 0)],
            (if withEmbed then applyEmbeddings (chunksOf 0 session) embs
             else chunksOf 0 session).foldl upsertChunkRow [], 1, 2⟩) :=
    upsertSession_found_singleton (sessionInputOf session) _
      (insertedSessionRow (sessionInputOf session) 0 0) rfl rfl
  rw [hdb1, h2, hu2]
  dsimp only [insertChunks]
  have hkeyeq : (updateSessionRow (sessionInputOf session) 1
      (insertedSessionRow (sessionInputOf session) 0 0)).session_id = file.sessionId := by
    rw [updateSessionRow_session_id]
    exact hsid
  refine ⟨?_, rfl, ?_, ?_, rfl⟩
  · simp [List.filter_cons, hkeyeq]
  · exact foldl_upsert_length_of_all _ _ (foldl_upsert_hasKey_all _ _)
  · rw [h1]

/-- Witness for C9: a concrete one-line file ingested twice with a
trivially succeeding embedder. -/
theorem reingest_idempotent_witness :
    ((ingestFile (fun _ => .ok [(1 : ℚ)]) true
        (ingestFile (fun _ => .ok [(1 : ℚ)]) true initialDB
          ⟨"s".data, "p".data, [some (.user none "hello world this is fine".data)]⟩).1
        ⟨"s".data, "p".data,
          [some (.user none "hello world this is fine".data)]⟩).1.sessions.filter
          (fun r => r.session_id == "s".data)).length = 1 ∧
    (ingestFile (fun _ => .ok [(1 : ℚ)]) true
        (ingestFile (fun _ => .ok [(1 : ℚ)]) true initialDB
          ⟨"s".data, "p".data, [some (.user none "hello world this is fine".data)]⟩).1
        ⟨"s".data, "p".data,
          [some (.user none "hello world this is fine".data)]⟩).1.sessions.length = 1 ∧
    (ingestFile (fun _ => .ok [(1 : ℚ)]) true
        (ingestFile (fun _ => .ok [(1 : ℚ)]) true initialDB
          ⟨"s".data, "p".data, [some (.user none "hello world this is fine".data)]⟩).1
        ⟨"s".data, "p".data,
          [some (.user none "hello world this is fine".data)]⟩).1.chunks.length
      = (ingestFile (fun _ => .ok [(1 : ℚ)]) true initialDB
          ⟨"s".data, "p".data,
            [some (.user none "hello world this is fine".data)]⟩).1.chunks.length ∧
    (ingestFile (fun _ => .ok [(1 : ℚ)]) true initialDB
        ⟨"s".data, "p".data, [some (.user none "hello world this is fine".data)]⟩).2
      = .processed ∧
    (ingestFile (fun _ => .ok [(1 : ℚ)]) true
        (ingestFile (fun _ => .ok [(1 : ℚ)]) true initialDB
          ⟨"s".data, "p".data, [some (.user none "hello world this is fine".data)]⟩).1
        ⟨"s".data, "p".data, [some (.user none "hello world this is fine".data)]⟩).2
      = .processed :=
  reingest_idempotent (fun _ => .ok [(1 : ℚ)]) true
    ⟨"s".data, "p".data, [some (.user none "hello world this is fine".data)]⟩
    ⟨"s".data, "p".data, none, none, none,
      [⟨0, .user, "hello world this is fine".data, none, 6, [], []⟩], 6, 0⟩
    [[(1 : ℚ)]] rfl rfl

/-! ## Claim theorems: C3, C4 -/

/-- C4: pure-similarity search returns only stored chunks whose
embedding is non-null (and whose role equals the role filter when one
is given), ordered by ascending cosine distance to the query vector —
equivalently by descending reported similarity — limited to the
requested count, with each result's similarity reported as
`1 − cosineDistance`. -/
theorem semanticSearch_spec (cosDist : Vec → Vec → ℚ) (db : DBState) (queryEmb : Vec)
    (limit : Nat) (roleFilter : Option Role) :
    (semanticSearch cosDist db queryEmb limit roleFilter).length ≤ limit ∧
    (semanticSearch cosDist db queryEmb limit roleFilter).Pairwise
      (fun a b => b.similarity ≤ a.similarity) ∧
    (semanticSearch cosDist db queryEmb limit roleFilter).Forall
      (fun r => ∃ cs ∈ joinRows db, ∃ v, cs.1.embedding = some v ∧
        (roleFilter.all fun rf => cs.1.role == rf) = true ∧
        r.similarity = 1 - cosDist v queryEmb ∧
        r.content = cs.1.content ∧ r.role = cs.1.role ∧
        r.source_session_id = cs.2.session_id) := by
  unfold semanticSearch
  refine ⟨?_, ?_, ?_⟩
  · rw [List.length_map]
    exact List.length_take_le _ _
  · rw [List.pairwise_map]
    have hsorted := @List.sorted_mergeSort (ChunkRow × SessionRow)
      (fun a b =>
        decide (cosDist (a.1.embedding.getD []) queryEmb
          ≤ cosDist (b.1.embedding.getD []) queryEmb))
      (by
        intro a b c hab hbc
        simp only [decide_eq_true_eq] at hab hbc ⊢
        exact le_trans hab hbc)
      (by
        intro a b
        simp only [Bool.or_eq_true, decide_eq_true_eq]
        exact le_total _ _)
      ((joinRows db).filter fun cs =>
        cs.1.embedding.isSome &&
          (match roleFilter with
           | some rf => cs.1.role == rf
           | none => true))
    refine (List.Pairwise.sublist (List.take_sublist _ _) hsorted).imp ?_
    intro a b hab
    simp only [decide_eq_true_eq] at hab
    exact sub_le_sub_left hab 1
  · rw [List.forall_iff_forall_mem]
    intro r hr
    rw [List.mem_map] at hr
    obtain ⟨cs, hcs, rfl⟩ := hr
    have hcs2 := List.Sublist.mem hcs (List.take_sublist _ _)
    have hcs3 := List.mem_mergeSort.1 hcs2
    rw [List.mem_filter] at hcs3
    obtain ⟨hjoin, hcond⟩ := hcs3
    rw [Bool.and_eq_true] at hcond
    obtain ⟨hemb, hrole⟩ := hcond
    obtain ⟨v, hv⟩ := Option.isSome_iff_exists.1 hemb
    refine ⟨cs, hjoin, v, hv, ?_, ?_, rfl, rfl, rfl⟩
    · cases roleFilter with
      | none => rfl
      | some rf => simpa using hrole
    · rw [hv]
      rfl

/-- C3: hybrid search returns only chunks that both have a non-null
embedding and lexically match the query; each result is scored
`0.7 × (1 − cosineDistance) + 0.3 × lexicalRank` with the rank
defaulting to 0 when unavailable; results are ordered by descending
score and limited to the requested count — a chunk lacking a lexical
match is never returned; cosineDistance 0.2 with lexicalRank 0.5
scores 0.71. -/
theorem hybridSearch_spec (cosDist : Vec → Vec → ℚ) (tsMatch : Str → Str → Bool)
    (tsRank : Str → Str → Option ℚ) (db : DBState) (queryEmb : Vec)
    (keyword : Str) (limit : Nat) :
    (hybridSearch cosDist tsMatch tsRank db queryEmb keyword limit).length ≤ limit ∧
    (hybridSearch cosDist tsMatch tsRank db queryEmb keyword limit).Pairwise
      (fun a b => b.similarity ≤ a.similarity) ∧
    (hybridSearch cosDist tsMatch tsRank db queryEmb keyword limit).Forall
      (fun r => ∃ cs ∈ joinRows db, ∃ v, cs.1.embedding = some v ∧
        tsMatch cs.1.content keyword = true ∧
        r.similarity = hybridScore (cosDist v queryEmb) (tsRank cs.1.content keyword) ∧
        r.content = cs.1.content ∧ r.role = cs.1.role ∧
        r.source_session_id = cs.2.session_id) ∧
    hybridScore (1 / 5) (some (1 / 2)) = 71 / 100 := by
  refine ⟨?_, ?_, ?_, ?_⟩
  · exact List.length_take_le _ _
  · have hsorted := @List.sorted_mergeSort SearchResult
      (fun a b => decide (b.similarity ≤ a.similarity))
      (by
        intro a b c hab hbc
        simp only [decide_eq_true_eq] at hab hbc ⊢
        exact le_trans hbc hab)
      (by
        intro a b
        simp only [Bool.or_eq_true, decide_eq_true_eq]
        exact le_total _ _)
      (((joinRows db).filter fun cs =>
          cs.1.embedding.isSome && tsMatch cs.1.content keyword).map fun cs =>
        ({ session_id := cs.1.session_id
           source_session_id := cs.2.session_id
           project_name := cs.2.project_name
           chunk_index := cs.1.chunk_index
           role := cs.1.role
           content := cs.1.content
           similarity := hybridScore (cosDist (cs.1.embedding.getD []) queryEmb)
             (tsRank cs.1.content keyword)
           created_at := cs.1.created_at } : SearchResult))
    refine (List.Pairwise.sublist (List.take_sublist _ _) hsorted).imp ?_
    intro a b hab
    simpa using hab
  · rw [List.forall_iff_forall_mem]
    intro r hr
    have hr2 := List.Sublist.mem hr (List.take_sublist _ _)
    have hr3 := List.mem_mergeSort.1 hr2
    rw [List.mem_map] at hr3
    obtain ⟨cs, hcs, rfl⟩ := hr3
    rw [List.mem_filter] at hcs
    obtain ⟨hjoin, hcond⟩ := hcs
    rw [Bool.and_eq_true] at hcond
    obtain ⟨hemb, hmatch⟩ := hcond
    obtain ⟨v, hv⟩ := Option.isSome_iff_exists.1 hemb
    refine ⟨cs, hjoin, v, hv, hmatch, ?_, rfl, rfl, rfl⟩
    rw [hv]
    rfl
  · unfold hybridScore
    norm_num
